import Mathlib

/-!
Verification of the object-record collection module
`bbq/objects_map/utils/structures.py` of BeyondBareQueries-Demo.

Shallow embedding conventions:
* Python floats are modelled as rationals (`ℚ`).
* Numeric arrays (numpy `ndarray` / torch `Tensor`) are modelled by the
  rank-indexed type `ND` (rank 0..3 suffices: every array handled by this
  module is a 1-D descriptor, an N×3 / 8×3 matrix, or one stacking level
  above those).  The tag `TKind` records whether a value currently lives
  as a numpy array or a torch tensor; `to_numpy` / `to_tensor` only move
  the tag, never the values.
* Python dicts holding an object's fields become the structure `ObjRec`
  whose fields are `Option`s: `none` models an absent key, `del` sets a
  field back to `none`.
* Python object identity and in-place mutation are modelled by a store
  (`Store`) of records addressed by natural numbers; a `DetectionList` is
  a list of addresses.  `copy.deepcopy` of a record is a value copy placed
  at a fresh address.
* A raised exception is an `Err` value; functions that mutate the store
  before possibly raising return the partially-mutated store together with
  `Option Err` (Python exceptions do not roll state back).
-/

deriving instance DecidableEq for Except

namespace BBQ

/-- Exceptions raised by the Python code. -/
inductive Err where
  | keyError (field : String)
  | indexError
  | typeError
  | valueError
  | runtimeError
  | assertError
deriving DecidableEq, Repr

/-- Tag distinguishing numpy arrays from torch tensors (values coincide). -/
inductive TKind where
  | np
  | tensor
deriving DecidableEq, Repr

/-- Numeric array of rank 0..3 over rationals.  Rank 3 is the highest rank
this module ever produces (stacking the 8×3 box-corner matrices). -/
inductive ND where
  | d0 (q : ℚ)
  | d1 (v : List ℚ)
  | d2 (m : List (List ℚ))
  | d3 (t : List (List (List ℚ)))
deriving DecidableEq, Repr

/-- A 1-D numeric array from a list of rationals. -/
def vecND (v : List ℚ) : ND := ND.d1 v

/-- The `id` field: either a Python `set` (iteration modelled as ascending
order, as for CPython small-int sets) or a Python `list`. -/
inductive IdVal where
  | iset (s : Finset ℕ)
  | ilist (l : List ℕ)
deriving DecidableEq

/-- `open3d.geometry.PointCloud`: points and per-point colors, each N×3. -/
structure PointCloud where
  points : List (List ℚ)
  colors : List (List ℚ)
deriving DecidableEq, Repr

/-- `open3d.geometry.OrientedBoundingBox`, modelled by the 8 corner points
returned by `get_box_points()` plus its display `color`. -/
structure BBox where
  cornerPoints : List (List ℚ)
  color : List ℚ
deriving DecidableEq, Repr

/-- One object record (a Python dict).  `none` = key absent. -/
structure ObjRec where
  pcd : Option PointCloud := none
  bbox : Option BBox := none
  descriptor : Option (TKind × ND) := none
  id : Option IdVal := none
  class_id : Option (List ℤ) := none
  inst_color : Option (List ℚ) := none
  pcd_np : Option ND := none
  bbox_np : Option ND := none
  pcd_color_np : Option ND := none
deriving DecidableEq

instance : Inhabited ObjRec := ⟨{}⟩

/-- The store of live records; addresses are indices into `cells`. -/
structure Store where
  cells : List ObjRec
deriving DecidableEq

/-- Read the record at an address (dangling addresses yield the empty
record; the Python code never holds a dangling reference). -/
def Store.get (h : Store) (a : ℕ) : ObjRec := h.cells.getD a default

/-- In-place mutation of the record at an address. -/
def Store.set (h : Store) (a : ℕ) (r : ObjRec) : Store := ⟨h.cells.set a r⟩

/-- Allocate a fresh record (`copy.deepcopy` target, new dict, ...). -/
def Store.alloc (h : Store) (r : ObjRec) : Store × ℕ :=
  (⟨h.cells ++ [r]⟩, h.cells.length)

/-- `to_numpy`: identity on numpy arrays, tag move on tensors. -/
def toNumpy (x : TKind × ND) : TKind × ND := (TKind.np, x.2)

/-- `to_tensor`: identity on tensors, tag move on numpy arrays. -/
def toTensor (x : TKind × ND) : TKind × ND := (TKind.tensor, x.2)

/-- `list(id)`: a set iterates in ascending order, a list is copied. -/
def idToList : IdVal → IdVal
  | .iset s => .ilist (s.sort (· ≤ ·))
  | .ilist l => .ilist l

/-- `set(id)`: collapse to the underlying set of members. -/
def idToSet : IdVal → IdVal
  | .iset s => .iset s
  | .ilist l => .iset l.toFinset

/-- Field names used in dynamic lookups (`detection[key]`). -/
inductive Key where
  | pcd
  | bbox
  | descriptor
  | id
  | class_id
  | inst_color
  | pcd_np
  | bbox_np
  | pcd_color_np
deriving DecidableEq, Repr

def Key.name : Key → String
  | .pcd => "pcd"
  | .bbox => "bbox"
  | .descriptor => "descriptor"
  | .id => "id"
  | .class_id => "class_id"
  | .inst_color => "inst_color"
  | .pcd_np => "pcd_np"
  | .bbox_np => "bbox_np"
  | .pcd_color_np => "pcd_color_np"

/-- A Python value as it flows through `get_stacked_values_torch`. -/
inductive Val where
  | vpcd (p : PointCloud)
  | vbbox (b : BBox)
  | vnum (k : TKind) (x : ND)
  | vid (v : IdVal)
  | vlistI (l : List ℤ)
  | vlistQ (l : List ℚ)
  | vint (z : ℤ)
  | vfloat (q : ℚ)
deriving DecidableEq

/-- `detection[key]` on a record: `none` models the `KeyError` case. -/
def ObjRec.lookup (r : ObjRec) : Key → Option Val
  | .pcd => r.pcd.map Val.vpcd
  | .bbox => r.bbox.map Val.vbbox
  | .descriptor => r.descriptor.map (fun x => Val.vnum x.1 x.2)
  | .id => r.id.map Val.vid
  | .class_id => r.class_id.map Val.vlistI
  | .inst_color => r.inst_color.map Val.vlistQ
  | .pcd_np => r.pcd_np.map (Val.vnum TKind.np)
  | .bbox_np => r.bbox_np.map (Val.vnum TKind.np)
  | .pcd_color_np => r.pcd_color_np.map (Val.vnum TKind.np)

/-- `v[idx]` for the value kinds that are subscriptable. -/
def Val.index : Val → ℕ → Except Err Val
  | .vnum k (ND.d1 v), i =>
      match v[i]? with
      | some q => .ok (.vnum k (ND.d0 q))
      | none => .error .indexError
  | .vnum k (ND.d2 m), i =>
      match m[i]? with
      | some row => .ok (.vnum k (ND.d1 row))
      | none => .error .indexError
  | .vnum k (ND.d3 t), i =>
      match t[i]? with
      | some mat => .ok (.vnum k (ND.d2 mat))
      | none => .error .indexError
  | .vnum _ (ND.d0 _), _ => .error .indexError
  | .vlistI l, i =>
      match l[i]? with
      | some z => .ok (.vint z)
      | none => .error .indexError
  | .vlistQ l, i =>
      match l[i]? with
      | some q => .ok (.vfloat q)
      | none => .error .indexError
  | .vid (.ilist l), i =>
      match l[i]? with
      | some n => .ok (.vint (n : ℤ))
      | none => .error .indexError
  | _, _ => .error .typeError

/-! ### Columnar extraction and stacking (`get_stacked_values_*`) -/

/-- Shape equality of two arrays, as `torch.stack` checks it. -/
def sameShape : ND → ND → Bool
  | .d0 _, .d0 _ => true
  | .d1 v, .d1 w => v.length == w.length
  | .d2 m, .d2 n =>
      m.length == n.length &&
        (m.map List.length) == (n.map List.length)
  | .d3 s, .d3 t =>
      s.length == t.length &&
        (s.map (fun m => m.map List.length)) == (t.map (fun m => m.map List.length))
  | _, _ => false

/-- Collect a list of rank-0 arrays into a 1-D array. -/
def asD0 : ND → Except Err ℚ
  | .d0 q => .ok q
  | _ => .error .runtimeError

/-- Collect a list of rank-1 arrays into rows. -/
def asD1 : ND → Except Err (List ℚ)
  | .d1 v => .ok v
  | _ => .error .runtimeError

/-- Collect a list of rank-2 arrays into slabs. -/
def asD2 : ND → Except Err (List (List ℚ))
  | .d2 m => .ok m
  | _ => .error .runtimeError

/-- `torch.stack(values, dim=0)`: fails on an empty list (RuntimeError)
and on shape mismatch; otherwise produces an array of one higher rank.
Rank-3 inputs would produce rank 4, beyond this model's cap; no value in
this module reaches that case. -/
def stackND : List ND → Except Err ND
  | [] => .error .runtimeError
  | x :: rest =>
    if rest.all (fun y => sameShape x y) then
      match x with
      | .d0 _ => ((x :: rest).mapM asD0).map ND.d1
      | .d1 _ => ((x :: rest).mapM asD1).map ND.d2
      | .d2 _ => ((x :: rest).mapM asD2).map ND.d3
      | .d3 _ => .error .typeError
    else .error .runtimeError

/-- The per-detection body of `get_stacked_values_torch`: look the key up,
optionally index into it, convert bounding boxes to their corner-point
array, convert numpy arrays to tensors, and require a tensor (anything
else makes the final `torch.stack` fail). -/
def stackedOne (r : ObjRec) (k : Key) (idx : Option ℕ) : Except Err ND :=
  match r.lookup k with
  | none => .error (.keyError k.name)
  | some v0 =>
    match (match idx with | none => Except.ok v0 | some i => v0.index i) with
    | .error e => .error e
    | .ok v =>
      match v with
      | .vbbox b => .ok (ND.d2 b.cornerPoints)
      | .vnum _ x => .ok x
      | _ => .error .typeError

/-- The collected per-detection values, in order; first error aborts. -/
def stackedVals (h : Store) (k : Key) (idx : Option ℕ) : List ℕ → Except Err (List ND)
  | [] => .ok []
  | a :: rest =>
    match stackedOne (h.get a) k idx with
    | .error e => .error e
    | .ok x =>
      match stackedVals h k idx rest with
      | .error e => .error e
      | .ok xs => .ok (x :: xs)

/-- `DetectionList.get_stacked_values_torch(key, idx)`. -/
def getStackedValuesTorch (h : Store) (l : List ℕ) (k : Key) (idx : Option ℕ) :
    Except Err (TKind × ND) :=
  (stackedVals h k idx l).bind fun xs => (stackND xs).map fun x => (TKind.tensor, x)

/-- `DetectionList.get_stacked_values_numpy(key, idx)`: the torch result
passed through `to_numpy`. -/
def getStackedValuesNumpy (h : Store) (l : List ℕ) (k : Key) (idx : Option ℕ) :
    Except Err (TKind × ND) :=
  (getStackedValuesTorch h l k idx).map toNumpy

/-! ### Sub-selection (`slice_by_mask`) -/

/-- The loop of `slice_by_mask`: `for i, m in enumerate(mask): if m:
new_self.append(self[i])`, with `self[i]` raising `IndexError` out of
range.  `i` is the running enumeration index into `l`. -/
def sliceGo (l : List α) : ℕ → List Bool → List α → Except Err (List α)
  | _, [], acc => .ok acc.reverse
  | i, m :: ms, acc =>
    if m then
      match l[i]? with
      | some x => sliceGo l (i + 1) ms (x :: acc)
      | none => .error .indexError
    else sliceGo l (i + 1) ms acc

/-- `DetectionList.slice_by_mask(mask)`. -/
def sliceByMask (l : List α) (mask : List Bool) : Except Err (List α) :=
  sliceGo l 0 mask []

/-- Mathematical mask filter used to state what `slice_by_mask` returns:
the elements at true positions, in order (stops at the shorter input). -/
def maskFilter : List α → List Bool → List α
  | _, [] => []
  | [], _ :: _ => []
  | x :: xs, m :: ms => if m then x :: maskFilter xs ms else maskFilter xs ms

/-! ### Majority class (`get_most_common_class`) -/

/-- The sorted distinct values of `np.unique`. -/
def npUniqueVals (cs : List ℤ) : List ℤ := cs.toFinset.sort (· ≤ ·)

/-- `np.argmax`: index of the first occurrence of the maximum. -/
def firstArgmax : List ℕ → ℕ
  | [] => 0
  | x :: xs => if xs.all (fun y => y ≤ x) then 0 else firstArgmax xs + 1

/-- Majority vote for one record:
`values, counts = np.unique(class_id, return_counts=True);
values[np.argmax(counts)]`.  `np.argmax` raises `ValueError` on an empty
array. -/
def mostCommonOf (cs : List ℤ) : Except Err ℤ :=
  let vals := npUniqueVals cs
  let counts := vals.map fun v => cs.count v
  if counts.isEmpty then .error .valueError
  else .ok (vals.getD (firstArgmax counts) 0)

/-- `DetectionList.get_most_common_class()`. -/
def getMostCommonClass (h : Store) : List ℕ → Except Err (List ℤ)
  | [] => .ok []
  | a :: rest =>
    match (h.get a).class_id with
    | none => .error (.keyError "class_id")
    | some cs =>
      match mostCommonOf cs with
      | .error e => .error e
      | .ok c =>
        match getMostCommonClass h rest with
        | .error e => .error e
        | .ok others => .ok (c :: others)

/-! ### Concatenation (`__add__` / `__iadd__`) -/

/-- `copy.deepcopy` of a detection list: fresh copies of the records at
fresh addresses (record-level aliasing inside one list is not modelled;
no caller builds such a list). -/
def deepcopyGo : Store → List ℕ → List ℕ → Store × List ℕ
  | h, [], acc => (h, acc.reverse)
  | h, a :: rest, acc =>
      let p := h.alloc (h.get a)
      deepcopyGo p.1 rest (p.2 :: acc)

/-- `DetectionList.__add__`: `new_list = copy.deepcopy(self);
new_list.extend(other)` — the left records are copied, the right ones
are shared by reference. -/
def detAdd (h : Store) (a b : List ℕ) : Store × List ℕ :=
  let p := deepcopyGo h a []
  (p.1, p.2 ++ b)

/-- `DetectionList.__iadd__`: in-place `self.extend(other)`. -/
def detIAdd (a b : List ℕ) : List ℕ := a ++ b

/-! ### Instance coloring (`color_by_instance`) -/

/-- `pcd.paint_uniform_color(c)`: every point gets color `c`. -/
def paintUniform (p : PointCloud) (c : List ℚ) : PointCloud :=
  { p with colors := List.replicate p.points.length c }

/-- A record after `d['pcd'].paint_uniform_color(c); d['bbox'].color = c`. -/
def paintedWith (r : ObjRec) (c : List ℚ) : ObjRec :=
  { r with pcd := r.pcd.map (paintUniform · c),
           bbox := r.bbox.map fun b => { b with color := c } }

/-- One record of the `inst_color` branch:
`d['pcd'].paint_uniform_color(d['inst_color']); d['bbox'].color = d['inst_color']`,
with the `KeyError`s in Python's evaluation order. -/
def paintInstRec (r : ObjRec) : Except Err ObjRec :=
  match r.pcd with
  | none => .error (.keyError "pcd")
  | some _ =>
    match r.inst_color with
    | none => .error (.keyError "inst_color")
    | some c =>
      match r.bbox with
      | none => .error (.keyError "bbox")
      | some _ => .ok (paintedWith r c)

/-- The loop of the `inst_color` branch; an error mid-loop keeps the
paints already applied. -/
def paintByInstGo : Store → List ℕ → Store × Option Err
  | h, [] => (h, none)
  | h, a :: rest =>
    match paintInstRec (h.get a) with
    | .error e => (h, some e)
    | .ok r => paintByInstGo (h.set a r) rest

/-- One record of the colormap branch, painted with a given color. -/
def paintCmapRec (r : ObjRec) (c : List ℚ) : Except Err ObjRec :=
  match r.pcd with
  | none => .error (.keyError "pcd")
  | some _ =>
    match r.bbox with
    | none => .error (.keyError "bbox")
    | some _ => .ok (paintedWith r c)

/-- The loop of the colormap branch over (address, color) pairs. -/
def paintCmapGo : Store → List (ℕ × List ℚ) → Store × Option Err
  | h, [] => (h, none)
  | h, (a, c) :: rest =>
    match paintCmapRec (h.get a) c with
    | .error e => (h, some e)
    | .ok r => paintCmapGo (h.set a r) rest

/-- `np.linspace(0, 1, n)`. -/
def linspace01 (n : ℕ) : List ℚ :=
  if n ≤ 1 then (List.range n).map fun _ => 0
  else (List.range n).map fun i : ℕ => (i : ℚ) / ((n : ℚ) - 1)

/-- `DetectionList.color_by_instance()`.  The branch is decided by key
presence on the FIRST record only (`"inst_color" in self[0]`).  The
matplotlib `turbo` colormap is external to the repository and is passed
in as the function `cmap`; the code keeps only the first three components
of each colormap sample (`[:, :3]`). -/
def colorByInstance (cmap : ℚ → List ℚ) (h : Store) (self : List ℕ) :
    Store × Option Err :=
  match self with
  | [] => (h, none)
  | a0 :: _ =>
    if (h.get a0).inst_color.isSome then
      paintByInstGo h self
    else
      let cols := (linspace01 self.length).map fun t => (cmap t).take 3
      paintCmapGo h (self.zip cols)

/-! ### Similarity scoring (`compute_similarities`) -/

def dotQ (a b : List ℚ) : ℚ := ((a.zip b).map fun p => p.1 * p.2).sum

def normSq (a : List ℚ) : ℚ := (a.map fun x => x * x).sum

/-- Computable surrogate for the cosine-similarity score of one stored
descriptor row against the query: the true `F.cosine_similarity` divides
the dot product by the product of the Euclidean norms (irrational over
`ℚ`); the surrogate divides by the product of the squared norms, keeping
the row-by-row structure — one deterministic score per record — exactly.
Division by zero is total (`= 0`) as in `ℚ`, mirroring torch's eps guard
producing a deterministic value for degenerate vectors. -/
def simScore (q r : List ℚ) : ℚ := dotQ q r / (normSq q * normSq r)

/-- Extract the rows of a rank-2 array (a shape error in torch terms). -/
def ndRows : ND → Except Err (List (List ℚ))
  | .d2 m => .ok m
  | _ => .error .runtimeError

/-- Extract a rank-1 array (the `(D,)` query the docstring requires). -/
def ndRow : ND → Except Err (List ℚ)
  | .d1 v => .ok v
  | _ => .error .runtimeError

/-- `MapObjectList.compute_similarities(new_features)`:
`to_tensor` the query, stack the stored descriptors, and score the query
against every row with cosine similarity (`F.cosine_similarity` over the
broadcast `(1,D)` vs `(N,D)` pair; mismatched `D` raises). -/
def computeSimilarities (h : Store) (l : List ℕ) (nf : TKind × ND) :
    Except Err (TKind × ND) :=
  let nfT := toTensor nf
  match getStackedValuesTorch h l Key.descriptor none with
  | .error e => .error e
  | .ok fk =>
    match ndRow nfT.2 with
    | .error e => .error e
    | .ok q =>
      match ndRows fk.2 with
      | .error e => .error e
      | .ok rows =>
        if rows.all fun r => r.length = q.length then
          .ok (TKind.tensor, ND.d1 (rows.map fun r => simScore q r))
        else .error .runtimeError

/-! ### Serialization (`to_serializable` / `load_serializable`) -/

/-- The per-record body of `MapObjectList.to_serializable`, acting on the
deep copy `s_obj_dict` of the record.  Mirroring the source: the three
assignments writing `pcd_np`, `bbox_np` and `pcd_color_np` are commented
out there, so nothing is written to those fields; the `descriptor` and
`id` conversions sit inside try/except blocks whose failures (absent key)
are logged and swallowed; the final `del s_obj_dict['pcd']` and
`del s_obj_dict['bbox']` are NOT guarded, so an absent key raises. -/
def serializeRec (r : ObjRec) : Except Err ObjRec :=
  let s := { r with descriptor := r.descriptor.map toNumpy,
                    id := r.id.map idToList }
  match s.pcd with
  | none => .error (.keyError "pcd")
  | some _ =>
    match s.bbox with
    | none => .error (.keyError "bbox")
    | some _ => .ok { s with pcd := none, bbox := none }

/-- The loop of `to_serializable`: each serialized dict is a fresh object
(allocated in the store); an error aborts the loop, the source records
untouched. -/
def toSerGo : Store → List ℕ → List ℕ → Store × List ℕ × Option Err
  | h, acc, [] => (h, acc.reverse, none)
  | h, acc, a :: rest =>
    match serializeRec (h.get a) with
    | .error e => (h, acc.reverse, some e)
    | .ok s =>
      let p := h.alloc s
      toSerGo p.1 (p.2 :: acc) rest

/-- `MapObjectList.to_serializable()`. -/
def toSerializable (h : Store) (self : List ℕ) : Store × List ℕ × Option Err :=
  toSerGo h [] self

/-- The per-record body of `MapObjectList.load_serializable`, acting on
the deep copy `new_obj` of a serialized dict, in source order: build the
point cloud from `pcd_np` (KeyError if absent), the oriented bounding box
from `bbox_np` (modelled by its defining corner points — the o3d
`create_from_points` fit is external geometry), overwrite the box color
with `pcd_color_np[0]`, set the cloud colors, convert `descriptor` and
`id` inside try/except, and delete the three `*_np` fields. -/
def loadRec (r : ObjRec) : Except Err ObjRec := do
  let pnd ←
    match r.pcd_np with
    | none => Except.error (Err.keyError "pcd_np")
    | some x => Except.ok x
  let pts ← ndRows pnd
  let bnd ←
    match r.bbox_np with
    | none => Except.error (Err.keyError "bbox_np")
    | some x => Except.ok x
  let corners ← ndRows bnd
  let cnd ←
    match r.pcd_color_np with
    | none => Except.error (Err.keyError "pcd_color_np")
    | some x => Except.ok x
  let cols ← ndRows cnd
  let c0 ←
    match cols with
    | [] => Except.error Err.indexError
    | c :: _ => Except.ok c
  pure { r with
    pcd := some { points := pts, colors := cols },
    bbox := some { cornerPoints := corners, color := c0 },
    descriptor := r.descriptor.map toTensor,
    id := r.id.map idToSet,
    pcd_np := none, bbox_np := none, pcd_color_np := none }

/-- The loop of `load_serializable`: reconstructed records are appended
one by one; an error mid-loop keeps the appends already made (Python
exceptions do not roll back `self`). -/
def loadGo : Store → List ℕ → List ℕ → Store × List ℕ × Option Err
  | h, self, [] => (h, self, none)
  | h, self, a :: rest =>
    match loadRec (h.get a) with
    | .error e => (h, self, some e)
    | .ok n =>
      let p := h.alloc n
      loadGo p.1 (self ++ [p.2]) rest

/-- `MapObjectList.load_serializable(s_obj_list)`: asserts the target is
empty before touching anything. -/
def loadSerializable (h : Store) (self : List ℕ) (s : List ℕ) :
    Store × List ℕ × Option Err :=
  if self.isEmpty then loadGo h self s else (h, self, some .assertError)

/-! ### Concrete sample data used by counterexamples and witnesses -/

def samplePcd : PointCloud :=
  { points := [[0, 0, 0], [1, 0, 0]],
    colors := [[1, 0, 0], [0, 1, 0]] }

def sampleBBox : BBox :=
  { cornerPoints := [[0, 0, 0], [1, 0, 0], [0, 1, 0], [0, 0, 1],
                     [1, 1, 0], [1, 0, 1], [0, 1, 1], [1, 1, 1]],
    color := [0, 0, 1] }

/-- A fully valid record: geometry, descriptor, ids, class votes. -/
def sampleRec : ObjRec :=
  { pcd := some samplePcd,
    bbox := some sampleBBox,
    descriptor := some (TKind.tensor, vecND [1, 0]),
    id := some (IdVal.iset {1, 2}),
    class_id := some [1, 1, 2] }

def sampleStore : Store := ⟨[sampleRec]⟩

/-- A record carrying only tied class votes, for the majority-vote tie. -/
def tieRec : ObjRec := { class_id := some [1, 2, 2, 3, 3] }

def tieStore : Store := ⟨[tieRec]⟩

/-- First record carries `inst_color`, second does not: the mixed case
deciding the `color_by_instance` branch question. -/
def mixedRec0 : ObjRec :=
  { pcd := some samplePcd, bbox := some sampleBBox, inst_color := some [1, 0, 0] }

def mixedRec1 : ObjRec :=
  { pcd := some samplePcd, bbox := some sampleBBox }

def mixedStore : Store := ⟨[mixedRec0, mixedRec1]⟩

/-- A concrete stand-in for the external matplotlib colormap. -/
def cmap0 : ℚ → List ℚ := fun t => [t, t, t, 1]

/-! ## Store lemmas -/

theorem Store.get_alloc_of_lt (h : Store) (r : ObjRec) (a : ℕ)
    (ha : a < h.cells.length) : ((h.alloc r).1).get a = h.get a := by
  simp only [Store.alloc, Store.get]
  exact List.getD_append _ _ _ _ ha

theorem Store.get_set_ne (h : Store) (a b : ℕ) (r : ObjRec) (hab : a ≠ b) :
    (h.set a r).get b = h.get b := by
  simp only [Store.set, Store.get]
  rw [List.getD_eq_getD_get?, List.getD_eq_getD_get?, List.get?_eq_getElem?,
    List.get?_eq_getElem?, List.getElem?_set_ne hab]

theorem Store.get_set_self (h : Store) (a : ℕ) (r : ObjRec)
    (ha : a < h.cells.length) : (h.set a r).get a = r := by
  simp only [Store.set, Store.get]
  rw [List.getD_eq_getD_get?, List.get?_eq_getElem?,
    List.getElem?_set_eq_of_lt r ha]
  rfl

theorem Store.length_set (h : Store) (a : ℕ) (r : ObjRec) :
    (h.set a r).cells.length = h.cells.length := by
  simp [Store.set]

/-! ## `slice_by_mask` lemmas -/

theorem maskFilter_nil (ms : List Bool) : maskFilter ([] : List α) ms = [] := by
  cases ms <;> rfl

theorem sliceGo_shift : ∀ (ms : List Bool) (l : List α) (k : ℕ) (acc : List α),
    sliceGo l k ms acc = sliceGo (l.drop k) 0 ms acc
  | [], _, _, _ => rfl
  | m :: ms, l, k, acc => by
    have h0 : (l.drop k)[0]? = l[k]? := by
      simp [List.getElem?_drop]
    have hd : (l.drop k).drop 1 = l.drop (k + 1) := by
      rw [List.drop_drop, Nat.add_comm]
    cases m with
    | false =>
      have h1 : sliceGo l k (false :: ms) acc = sliceGo l (k + 1) ms acc := rfl
      have h2 : sliceGo (l.drop k) 0 (false :: ms) acc = sliceGo (l.drop k) 1 ms acc := rfl
      rw [h1, h2, sliceGo_shift ms l (k + 1) acc, sliceGo_shift ms (l.drop k) 1 acc, hd]
    | true =>
      have h1 : sliceGo l k (true :: ms) acc =
          match l[k]? with
          | some x => sliceGo l (k + 1) ms (x :: acc)
          | none => Except.error Err.indexError := rfl
      have h2 : sliceGo (l.drop k) 0 (true :: ms) acc =
          match (l.drop k)[0]? with
          | some x => sliceGo (l.drop k) 1 ms (x :: acc)
          | none => Except.error Err.indexError := rfl
      rw [h1, h2, h0]
      cases hx : l[k]? with
      | none => rfl
      | some x =>
        simp only
        rw [sliceGo_shift ms l (k + 1) (x :: acc), sliceGo_shift ms (l.drop k) 1 (x :: acc), hd]

theorem sliceGo_ok : ∀ (ms : List Bool) (l : List α) (acc : List α),
    (∀ i, (hi : i < ms.length) → ms.get ⟨i, hi⟩ = true → i < l.length) →
    sliceGo l 0 ms acc = .ok (acc.reverse ++ maskFilter l ms)
  | [], l, acc, _ => by simp [sliceGo, maskFilter]
  | true :: ms, l, acc, h => by
    have h0 : 0 < l.length := h 0 (by simp) rfl
    obtain ⟨x, xs, rfl⟩ : ∃ x xs, l = x :: xs := by
      cases l with
      | nil => simp at h0
      | cons x xs => exact ⟨x, xs, rfl⟩
    have hrest : ∀ i, (hi : i < ms.length) → ms.get ⟨i, hi⟩ = true → i < xs.length := by
      intro i hi ht
      have := h (i + 1) (by simpa using Nat.succ_lt_succ hi) (by simpa using ht)
      simpa using this
    have h1 : sliceGo (x :: xs) 0 (true :: ms) acc =
        match (x :: xs)[0]? with
        | some y => sliceGo (x :: xs) 1 ms (y :: acc)
        | none => Except.error Err.indexError := rfl
    rw [h1, List.getElem?_cons_zero]
    show sliceGo (x :: xs) 1 ms (x :: acc) =
      Except.ok (acc.reverse ++ maskFilter (x :: xs) (true :: ms))
    rw [sliceGo_shift ms (x :: xs) 1 (x :: acc)]
    have hd : (x :: xs).drop 1 = xs := rfl
    rw [hd, sliceGo_ok ms xs (x :: acc) hrest]
    simp [maskFilter]
  | false :: ms, l, acc, h => by
    have h1 : sliceGo l 0 (false :: ms) acc = sliceGo l 1 ms acc := rfl
    rw [h1, sliceGo_shift ms l 1 acc]
    cases l with
    | nil =>
      have hrest : ∀ i, (hi : i < ms.length) → ms.get ⟨i, hi⟩ = true →
          i < ([] : List α).length := by
        intro i hi ht
        have := h (i + 1) (by simpa using Nat.succ_lt_succ hi) (by simpa using ht)
        simp at this
      rw [show ([] : List α).drop 1 = [] from rfl, sliceGo_ok ms [] acc hrest]
      simp [maskFilter, maskFilter_nil]
    | cons x xs =>
      have hrest : ∀ i, (hi : i < ms.length) → ms.get ⟨i, hi⟩ = true → i < xs.length := by
        intro i hi ht
        have := h (i + 1) (by simpa using Nat.succ_lt_succ hi) (by simpa using ht)
        simpa using this
      rw [show (x :: xs).drop 1 = xs from rfl, sliceGo_ok ms xs acc hrest]
      simp [maskFilter]

theorem sliceGo_ok_inv : ∀ (ms : List Bool) (l : List α) (k : ℕ) (acc res : List α),
    sliceGo l k ms acc = .ok res →
    ∀ i, (hi : i < ms.length) → ms.get ⟨i, hi⟩ = true → k + i < l.length
  | [], _, _, _, _ => by
    intro _ i hi
    simp at hi
  | true :: ms, l, k, acc, res => by
    intro heq i hi ht
    have h1 : sliceGo l k (true :: ms) acc =
        match l[k]? with
        | some x => sliceGo l (k + 1) ms (x :: acc)
        | none => Except.error Err.indexError := rfl
    rw [h1] at heq
    cases hx : l[k]? with
    | none => rw [hx] at heq; simp at heq
    | some x =>
      rw [hx] at heq
      simp only at heq
      have hk : k < l.length := by
        have := List.getElem?_eq_some.mp hx
        exact this.1
      cases i with
      | zero => simpa using hk
      | succ j =>
        have := sliceGo_ok_inv ms l (k + 1) (x :: acc) res heq j
          (by simpa using Nat.lt_of_succ_lt_succ hi) (by simpa using ht)
        omega
  | false :: ms, l, k, acc, res => by
    intro heq i hi ht
    have h1 : sliceGo l k (false :: ms) acc = sliceGo l (k + 1) ms acc := rfl
    rw [h1] at heq
    cases i with
    | zero => simp at ht
    | succ j =>
      have := sliceGo_ok_inv ms l (k + 1) acc res heq j
        (by simpa using Nat.lt_of_succ_lt_succ hi) (by simpa using ht)
      omega

/-- C3 (counterexample): a mask strictly shorter than the collection does
NOT raise — `slice_by_mask([10,20], [True])` silently ignores the second
record and returns `[10]`, contradicting the claim that any length
mismatch raises. -/
theorem sliceByMask_short_mask_no_error :
    sliceByMask ([10, 20] : List ℕ) [true] = Except.ok [10] := by decide

/-- C3 (amended): for a mask of equal length — and generally whenever
every true mask entry is at an in-range index, in particular for any
shorter mask — `slice_by_mask` returns exactly the records at the true
positions in original order, raising nothing; it raises (IndexError)
exactly when some true entry sits at an index `≥ len(C)`, which requires
the mask to be longer than the collection. -/
theorem sliceByMask_spec {α : Type} (l : List α) (mask : List Bool) :
    ((∀ i, (hi : i < mask.length) → mask.get ⟨i, hi⟩ = true → i < l.length) →
      sliceByMask l mask = .ok (maskFilter l mask)) ∧
    ((∃ i, ∃ hi : i < mask.length, mask.get ⟨i, hi⟩ = true ∧ l.length ≤ i) →
      ∃ e, sliceByMask l mask = .error e) := by
  constructor
  · intro h
    simpa [sliceByMask] using sliceGo_ok mask l [] h
  · rintro ⟨i, hi, ht, hle⟩
    cases hres : sliceByMask l mask with
    | error e => exact ⟨e, rfl⟩
    | ok res =>
      have := sliceGo_ok_inv mask l 0 [] res hres i hi ht
      omega

/-- Witness for `sliceByMask_spec` at a concrete equal-length mask. -/
theorem sliceByMask_spec_witness :
    sliceByMask ([10, 20] : List ℕ) [true, false] =
      Except.ok (maskFilter [10, 20] [true, false]) :=
  (sliceByMask_spec [10, 20] [true, false]).1 (by decide)

/-! ## Serialization theorems -/

/-- C1 (code bug): on a fully valid one-record collection, serialization
itself succeeds, but loading the serialized output into a fresh empty
collection raises `KeyError 'pcd_np'` and appends nothing: the assignments
producing `pcd_np`/`bbox_np`/`pcd_color_np` in `to_serializable` are
commented out while `load_serializable` still reads them, so the claimed
round-trip never completes. -/
theorem roundtrip_fails_keyError_pcd_np :
    (toSerializable sampleStore [0]).2.2 = none ∧
    (loadSerializable (toSerializable sampleStore [0]).1 []
        (toSerializable sampleStore [0]).2.1).2.2 = some (Err.keyError "pcd_np") ∧
    (loadSerializable (toSerializable sampleStore [0]).1 []
        (toSerializable sampleStore [0]).2.1).2.1 = [] := by decide

/-- C2 (code bug): the record mapping produced by `to_serializable` for a
fully valid record does drop the geometry handles `pcd`/`bbox`, but does
NOT contain `pcd_np`, `bbox_np`, or `pcd_color_np` — the lines writing
them are commented out in the source, though `load_serializable` (and the
spec's on-disk contract) require them. -/
theorem toSerializable_missing_np_fields :
    (toSerializable sampleStore [0]).2.2 = none ∧
    (toSerializable sampleStore [0]).2.1 = [1] ∧
    ((toSerializable sampleStore [0]).1.get 1).pcd_np = none ∧
    ((toSerializable sampleStore [0]).1.get 1).bbox_np = none ∧
    ((toSerializable sampleStore [0]).1.get 1).pcd_color_np = none ∧
    ((toSerializable sampleStore [0]).1.get 1).pcd = none ∧
    ((toSerializable sampleStore [0]).1.get 1).bbox = none := by decide

/-- C7: `load_serializable` on a non-empty target fails the leading
assertion and leaves both the store and the target list exactly as they
were; success is only possible from an empty target. -/
theorem loadSerializable_nonempty_assert (h : Store) (self s : List ℕ) :
    (self ≠ [] → loadSerializable h self s = (h, self, some Err.assertError)) ∧
    ((loadSerializable h self s).2.2 = none → self = []) := by
  constructor
  · intro hne
    have hfalse : self.isEmpty = false := by
      cases self with
      | nil => exact absurd rfl hne
      | cons a rest => rfl
    simp [loadSerializable, hfalse]
  · intro hok
    by_contra hne
    have hfalse : self.isEmpty = false := by
      cases self with
      | nil => exact absurd rfl hne
      | cons a rest => rfl
    simp [loadSerializable, hfalse] at hok

/-- Witness for `loadSerializable_nonempty_assert`. -/
theorem loadSerializable_nonempty_assert_witness :
    loadSerializable sampleStore [0] [] = (sampleStore, [0], some Err.assertError) :=
  (loadSerializable_nonempty_assert sampleStore [0] []).1 (by decide)

theorem toSerGo_preserves : ∀ (objs : List ℕ) (h : Store) (acc : List ℕ) (a : ℕ),
    a < h.cells.length → ((toSerGo h acc objs).1).get a = h.get a
  | [], _, _, _, _ => rfl
  | o :: rest, h, acc, a, ha => by
    simp only [toSerGo]
    cases hs : serializeRec (h.get o) with
    | error e => rfl
    | ok s =>
      simp only
      have h1 : a < ((h.alloc s).1).cells.length := by
        simp only [Store.alloc, List.length_append, List.length_cons, List.length_nil]
        omega
      rw [toSerGo_preserves rest (h.alloc s).1 _ a h1]
      exact Store.get_alloc_of_lt h s a ha

/-- C10: `to_serializable` never mutates the source collection — every
live record of the store, in particular every record the collection
addresses, is unchanged afterwards (each serialized mapping is built from
a deep copy before any conversion or deletion). -/
theorem toSerializable_preserves_source (h : Store) (self : List ℕ) (a : ℕ)
    (ha : a < h.cells.length) :
    ((toSerializable h self).1).get a = h.get a :=
  toSerGo_preserves self h [] a ha

/-- Witness for `toSerializable_preserves_source`. -/
theorem toSerializable_preserves_source_witness :
    ((toSerializable sampleStore [0]).1).get 0 = sampleStore.get 0 :=
  toSerializable_preserves_source sampleStore [0] 0 (by decide)

/-! ## `np.argmax` / `np.unique` lemmas -/

theorem firstArgmax_lt : ∀ (l : List ℕ), l ≠ [] → firstArgmax l < l.length
  | [], h => absurd rfl h
  | x :: xs, _ => by
    simp only [firstArgmax]
    by_cases hall : xs.all (fun y => y ≤ x) = true
    · rw [if_pos hall]
      simp
    · rw [if_neg hall]
      have hxs : xs ≠ [] := by
        intro h
        subst h
        simp at hall
      have := firstArgmax_lt xs hxs
      simp only [List.length_cons]
      omega

theorem firstArgmax_le : ∀ (l : List ℕ) (j : ℕ), j < l.length →
    l.getD j 0 ≤ l.getD (firstArgmax l) 0
  | [], j, hj => by simp at hj
  | x :: xs, j, hj => by
    simp only [firstArgmax]
    by_cases hall : xs.all (fun y => y ≤ x) = true
    · rw [if_pos hall]
      have hx : (x :: xs).getD 0 0 = x := rfl
      rw [hx]
      cases j with
      | zero => simp
      | succ i =>
        have hi : i < xs.length := by simpa using hj
        have hg2 : (x :: xs).getD (i + 1) 0 = xs.getD i 0 := rfl
        rw [hg2]
        have hmem : xs.getD i 0 ∈ xs := by
          rw [List.getD_eq_getElem _ _ hi]
          exact List.getElem_mem _
        have := List.all_eq_true.mp hall _ hmem
        simpa using this
    · rw [if_neg hall]
      have hg : (x :: xs).getD (firstArgmax xs + 1) 0 = xs.getD (firstArgmax xs) 0 := rfl
      rw [hg]
      cases j with
      | zero =>
        have hex : ∃ y ∈ xs, x < y := by
          by_contra hc
          push_neg at hc
          apply hall
          rw [List.all_eq_true]
          intro y hy
          exact decide_eq_true (hc y hy)
        obtain ⟨y, hy, hxy⟩ := hex
        obtain ⟨i, hi, heq⟩ := List.mem_iff_getElem.mp hy
        have h1 : xs.getD i 0 ≤ xs.getD (firstArgmax xs) 0 := firstArgmax_le xs i hi
        have h2 : xs.getD i 0 = y := by rw [List.getD_eq_getElem _ _ hi, heq]
        have hx0 : (x :: xs).getD 0 0 = x := rfl
        rw [hx0]
        omega
      | succ i =>
        have hi : i < xs.length := by simpa using hj
        have hg2 : (x :: xs).getD (i + 1) 0 = xs.getD i 0 := rfl
        rw [hg2]
        exact firstArgmax_le xs i hi

theorem firstArgmax_first : ∀ (l : List ℕ) (j : ℕ), j < firstArgmax l →
    l.getD j 0 < l.getD (firstArgmax l) 0
  | [], j, hj => by simp [firstArgmax] at hj
  | x :: xs, j, hj => by
    simp only [firstArgmax] at hj ⊢
    by_cases hall : xs.all (fun y => y ≤ x) = true
    · rw [if_pos hall] at hj
      omega
    · rw [if_neg hall] at hj ⊢
      have hg : (x :: xs).getD (firstArgmax xs + 1) 0 = xs.getD (firstArgmax xs) 0 := rfl
      rw [hg]
      cases j with
      | zero =>
        have hex : ∃ y ∈ xs, x < y := by
          by_contra hc
          push_neg at hc
          apply hall
          rw [List.all_eq_true]
          intro y hy
          exact decide_eq_true (hc y hy)
        obtain ⟨y, hy, hxy⟩ := hex
        obtain ⟨i, hi, heq⟩ := List.mem_iff_getElem.mp hy
        have h1 : xs.getD i 0 ≤ xs.getD (firstArgmax xs) 0 := firstArgmax_le xs i hi
        have h2 : xs.getD i 0 = y := by rw [List.getD_eq_getElem _ _ hi, heq]
        have hx0 : (x :: xs).getD 0 0 = x := rfl
        rw [hx0]
        omega
      | succ i =>
        have hlt : i < firstArgmax xs := by omega
        have hg2 : (x :: xs).getD (i + 1) 0 = xs.getD i 0 := rfl
        rw [hg2]
        exact firstArgmax_first xs i hlt

theorem mem_npUniqueVals {cs : List ℤ} {v : ℤ} : v ∈ npUniqueVals cs ↔ v ∈ cs := by
  simp [npUniqueVals, Finset.mem_sort, List.mem_toFinset]

theorem npUniqueVals_sorted (cs : List ℤ) : List.Sorted (· < ·) (npUniqueVals cs) :=
  Finset.sort_sorted_lt _

/-- Behaviour of `values[np.argmax(counts)]` for a sorted duplicate-free
value list paired with its count array: the pick is a member of maximal
count, smallest among tied maxima. -/
theorem pickMax_spec (cs vals : List ℤ)
    (hsorted : List.Sorted (· < ·) vals)
    (hmem : ∀ v, v ∈ vals ↔ v ∈ cs)
    (hvne : vals ≠ []) :
    vals.getD (firstArgmax (vals.map fun v => cs.count v)) 0 ∈ cs ∧
    (∀ v ∈ cs,
      cs.count v ≤ cs.count (vals.getD (firstArgmax (vals.map fun v => cs.count v)) 0)) ∧
    (∀ v ∈ cs,
      cs.count v = cs.count (vals.getD (firstArgmax (vals.map fun v => cs.count v)) 0) →
      vals.getD (firstArgmax (vals.map fun v => cs.count v)) 0 ≤ v) := by
  have hmlen : (vals.map fun v => cs.count v).length = vals.length := List.length_map _ _
  have hmne : (vals.map fun v => cs.count v) ≠ [] := by
    intro h0
    exact hvne (List.map_eq_nil_iff.mp h0)
  have hidxlt : firstArgmax (vals.map fun v => cs.count v) < vals.length := by
    have := firstArgmax_lt _ hmne
    omega
  have hcount_at : ∀ j, j < vals.length →
      (vals.map fun v => cs.count v).getD j 0 = cs.count (vals.getD j 0) := by
    intro j hj
    have hjm : j < (vals.map fun v => cs.count v).length := by omega
    rw [List.getD_eq_getElem _ _ hjm, List.getD_eq_getElem _ _ hj]
    exact List.getElem_map _
  have hcmem : vals.getD (firstArgmax (vals.map fun v => cs.count v)) 0 ∈ cs := by
    refine (hmem _).mp ?_
    rw [List.getD_eq_getElem _ _ hidxlt]
    exact List.getElem_mem _
  refine ⟨hcmem, ?_, ?_⟩
  · intro v hv
    obtain ⟨j, hj, heq⟩ := List.mem_iff_getElem.mp ((hmem v).mpr hv)
    have h1 := firstArgmax_le (vals.map fun v => cs.count v) j (by omega)
    rw [hcount_at j hj, hcount_at _ hidxlt] at h1
    rw [List.getD_eq_getElem _ _ hj, heq] at h1
    exact h1
  · intro v hv hcnt
    obtain ⟨j, hj, heq⟩ := List.mem_iff_getElem.mp ((hmem v).mpr hv)
    by_cases hij : firstArgmax (vals.map fun v => cs.count v) ≤ j
    · rcases Nat.eq_or_lt_of_le hij with hijeq | hijlt
      · have hgv : vals.getD (firstArgmax (vals.map fun v => cs.count v)) 0 = v := by
          rw [hijeq, List.getD_eq_getElem _ _ hj]
          exact heq
        omega
      · have hrel := List.Sorted.rel_get_of_lt hsorted
          (a := ⟨firstArgmax (vals.map fun v => cs.count v), hidxlt⟩)
          (b := ⟨j, hj⟩) (by simpa using hijlt)
        have hgi : vals.get ⟨firstArgmax (vals.map fun v => cs.count v), hidxlt⟩ =
            vals.getD (firstArgmax (vals.map fun v => cs.count v)) 0 := by
          rw [List.getD_eq_getElem _ _ hidxlt]
          rfl
        have hgj : vals.get ⟨j, hj⟩ = v := by
          rw [← heq]
          rfl

        rw [hgi, hgj] at hrel
        omega
    · exfalso
      have hfirst := firstArgmax_first (vals.map fun v => cs.count v) j (by omega)
      rw [hcount_at j hj, hcount_at _ hidxlt] at hfirst
      rw [List.getD_eq_getElem _ _ hj, heq] at hfirst
      omega

/-- Functional specification of `np.unique` + `np.argmax` as the source
composes them: the returned class value is a vote of maximal count, and
among tied maximal counts it is the smallest value. -/
theorem mostCommonOf_spec (cs : List ℤ) (hne : cs ≠ []) :
    ∃ c, mostCommonOf cs = .ok c ∧ c ∈ cs ∧
      (∀ v ∈ cs, cs.count v ≤ cs.count c) ∧
      (∀ v ∈ cs, cs.count v = cs.count c → c ≤ v) := by
  have hvne : npUniqueVals cs ≠ [] := by
    have hnonempty : cs.toFinset.Nonempty := (List.toFinset_nonempty_iff cs).2 hne
    have hlen : (npUniqueVals cs).length = cs.toFinset.card := Finset.length_sort _
    have hpos : 0 < (npUniqueVals cs).length := by
      rw [hlen]
      exact Finset.card_pos.mpr hnonempty
    exact List.ne_nil_of_length_pos hpos
  have hcne : ((npUniqueVals cs).map fun v => cs.count v) ≠ [] := by
    intro h0
    exact hvne (List.map_eq_nil_iff.mp h0)
  have hemp : ((npUniqueVals cs).map fun v => cs.count v).isEmpty = false := by
    cases hc : ((npUniqueVals cs).map fun v => cs.count v) with
    | nil => exact absurd hc hcne
    | cons y ys => rfl
  have hmc : mostCommonOf cs =
      .ok ((npUniqueVals cs).getD
        (firstArgmax ((npUniqueVals cs).map fun v => cs.count v)) 0) := by
    unfold mostCommonOf
    simp only [hemp, Bool.false_eq_true, if_false]
  obtain ⟨h1, h2, h3⟩ := pickMax_spec cs (npUniqueVals cs) (npUniqueVals_sorted cs)
    (fun v => mem_npUniqueVals) hvne
  exact ⟨_, hmc, h1, h2, h3⟩

theorem mostCommonOf_nil : mostCommonOf ([] : List ℤ) = .error .valueError := by
  have h : npUniqueVals ([] : List ℤ) = [] := by simp [npUniqueVals]
  unfold mostCommonOf
  rw [h]
  rfl

/-- C5: for records with non-empty vote lists, `get_most_common_class`
returns, per record in order, a vote of maximal count, ties resolving to
the smallest tied value (because `np.unique` sorts ascending and
`np.argmax` returns the first maximum); any record with an empty
`class_id` makes the call fail. -/
theorem getMostCommonClass_spec (h : Store) (l : List ℕ) :
    ((∀ a ∈ l, ∃ cs, (h.get a).class_id = some cs ∧ cs ≠ []) →
      ∃ classes, getMostCommonClass h l = .ok classes ∧ classes.length = l.length ∧
        ∀ i, i < l.length → ∃ cs, (h.get (l.getD i 0)).class_id = some cs ∧
          classes.getD i 0 ∈ cs ∧
          (∀ v ∈ cs, cs.count v ≤ cs.count (classes.getD i 0)) ∧
          (∀ v ∈ cs, cs.count v = cs.count (classes.getD i 0) → classes.getD i 0 ≤ v)) ∧
    ((∃ a ∈ l, (h.get a).class_id = some []) →
      ∃ e, getMostCommonClass h l = .error e) := by
  have main : ∀ (l : List ℕ),
      (∀ a ∈ l, ∃ cs, (h.get a).class_id = some cs ∧ cs ≠ []) →
      ∃ classes, getMostCommonClass h l = .ok classes ∧ classes.length = l.length ∧
        ∀ i, i < l.length → ∃ cs, (h.get (l.getD i 0)).class_id = some cs ∧
          classes.getD i 0 ∈ cs ∧
          (∀ v ∈ cs, cs.count v ≤ cs.count (classes.getD i 0)) ∧
          (∀ v ∈ cs, cs.count v = cs.count (classes.getD i 0) → classes.getD i 0 ≤ v) := by
    intro l
    induction l with
    | nil =>
      intro _
      exact ⟨[], rfl, rfl, by intro i hi; simp at hi⟩
    | cons a rest ih =>
      intro hvotes
      obtain ⟨cs, hcs, hcne⟩ := hvotes a (by simp)
      obtain ⟨c, hok, hcmem, hmax, htie⟩ := mostCommonOf_spec cs hcne
      obtain ⟨others, hothers, hlen, hprops⟩ := ih fun b hb => hvotes b (by simp [hb])
      refine ⟨c :: others, ?_, by simpa using hlen, ?_⟩
      · have hstep : getMostCommonClass h (a :: rest) =
            match (h.get a).class_id with
            | none => .error (.keyError "class_id")
            | some cs =>
              match mostCommonOf cs with
              | .error e => .error e
              | .ok c =>
                match getMostCommonClass h rest with
                | .error e => .error e
                | .ok others => .ok (c :: others) := rfl
        rw [hstep]
        simp only [hcs, hok, hothers]
      · intro i hi
        cases i with
        | zero => exact ⟨cs, hcs, hcmem, hmax, htie⟩
        | succ j =>
          have hj : j < rest.length := by simpa using hi
          have hg1 : (a :: rest).getD (j + 1) 0 = rest.getD j 0 := rfl
          have hg2 : (c :: others).getD (j + 1) 0 = others.getD j 0 := rfl
          rw [hg1, hg2]
          exact hprops j hj
  have inv : ∀ (l : List ℕ) (classes : List ℤ),
      getMostCommonClass h l = .ok classes →
      ∀ a ∈ l, ∃ cs, (h.get a).class_id = some cs ∧ cs ≠ [] := by
    intro l
    induction l with
    | nil => intro classes _ a ha; simp at ha
    | cons b rest ih =>
      intro classes heq a ha
      have hstep : getMostCommonClass h (b :: rest) =
          match (h.get b).class_id with
          | none => .error (.keyError "class_id")
          | some cs =>
            match mostCommonOf cs with
            | .error e => .error e
            | .ok c =>
              match getMostCommonClass h rest with
              | .error e => .error e
              | .ok others => .ok (c :: others) := rfl
      rw [hstep] at heq
      cases hcid : (h.get b).class_id with
      | none =>
        simp only [hcid] at heq
        exact Except.noConfusion heq
      | some cs =>
        simp only [hcid] at heq
        cases hmc : mostCommonOf cs with
        | error e =>
          simp only [hmc] at heq
          exact Except.noConfusion heq
        | ok c =>
          simp only [hmc] at heq
          cases hrest : getMostCommonClass h rest with
          | error e =>
            simp only [hrest] at heq
            exact Except.noConfusion heq
          | ok others =>
            rcases List.mem_cons.mp ha with rfl | hmem
            · refine ⟨cs, hcid, ?_⟩
              intro hnil
              subst hnil
              rw [mostCommonOf_nil] at hmc
              exact Except.noConfusion hmc
            · exact ih others hrest a hmem
  constructor
  · exact main l
  · rintro ⟨a, ha, hempty⟩
    cases hres : getMostCommonClass h l with
    | error e => exact ⟨e, rfl⟩
    | ok classes =>
      obtain ⟨cs, hcs, hcne⟩ := inv l classes hres a ha
      rw [hempty] at hcs
      exact (hcne (by injection hcs with h1; exact h1.symm)).elim

/-- Witness for `getMostCommonClass_spec` on the tie list `[1,2,2,3,3]`. -/
theorem getMostCommonClass_spec_witness :
    ∃ classes, getMostCommonClass tieStore [0] = .ok classes ∧
      classes.length = [0].length ∧
      ∀ i, i < [0].length → ∃ cs, (tieStore.get ([0].getD i 0)).class_id = some cs ∧
        classes.getD i 0 ∈ cs ∧
        (∀ v ∈ cs, cs.count v ≤ cs.count (classes.getD i 0)) ∧
        (∀ v ∈ cs, cs.count v = cs.count (classes.getD i 0) → classes.getD i 0 ≤ v) :=
  (getMostCommonClass_spec tieStore [0]).1 (by
    intro a ha
    have : a = 0 := by simpa using ha
    subst this
    exact ⟨[1, 2, 2, 3, 3], rfl, by decide⟩)

/-! ## Concatenation lemmas -/

theorem deepcopyGo_cells : ∀ (a : List ℕ) (h : Store) (acc : List ℕ),
    (∀ x ∈ a, x < h.cells.length) →
    ((deepcopyGo h a acc).1).cells = h.cells ++ a.map h.get
  | [], h, acc, _ => by simp [deepcopyGo]
  | a0 :: rest, h, acc, hv => by
    have hstep : deepcopyGo h (a0 :: rest) acc =
        deepcopyGo ⟨h.cells ++ [h.get a0]⟩ rest (h.cells.length :: acc) := rfl
    have hv2 : ∀ x ∈ rest, x < (⟨h.cells ++ [h.get a0]⟩ : Store).cells.length := by
      intro x hx
      have := hv x (by simp [hx])
      simp only [List.length_append, List.length_cons, List.length_nil]
      omega
    rw [hstep, deepcopyGo_cells rest ⟨h.cells ++ [h.get a0]⟩ (h.cells.length :: acc) hv2]
    have hmap : rest.map (Store.get ⟨h.cells ++ [h.get a0]⟩) = rest.map h.get := by
      apply List.map_congr_left
      intro x hx
      have hxlt : x < h.cells.length := hv x (by simp [hx])
      show Store.get ⟨h.cells ++ [h.get a0]⟩ x = h.get x
      simp only [Store.get]
      exact List.getD_append _ _ _ _ hxlt
    rw [hmap]
    simp [List.append_assoc]

theorem deepcopyGo_addrs : ∀ (a : List ℕ) (h : Store) (acc : List ℕ),
    (deepcopyGo h a acc).2 =
      acc.reverse ++ (List.range a.length).map fun i => h.cells.length + i
  | [], h, acc => by simp [deepcopyGo]
  | a0 :: rest, h, acc => by
    have hstep : deepcopyGo h (a0 :: rest) acc =
        deepcopyGo ⟨h.cells ++ [h.get a0]⟩ rest (h.cells.length :: acc) := rfl
    rw [hstep, deepcopyGo_addrs rest ⟨h.cells ++ [h.get a0]⟩ (h.cells.length :: acc)]
    simp only [List.reverse_cons, List.append_assoc, List.length_cons,
      List.range_succ_eq_map, List.map_cons, List.map_map, List.singleton_append,
      List.length_append, List.length_nil]
    congr 1
    congr 1
    apply List.map_congr_left
    intro i _
    simp only [Function.comp_apply]
    omega

/-- C6: `A + B` deep-copies the left operand and reference-appends the
right one: the result has length `len(A)+len(B)`, its tail past `len(A)`
is exactly `B`'s records by reference, each copied record is a fresh cell
equal in value to `A`'s record, and mutating any record of `A` afterwards
leaves every copied cell untouched; `A += B` appends by reference so the
length grows by exactly `len(B)`. -/
theorem detAdd_spec (h : Store) (a b : List ℕ) (hv : ∀ x ∈ a, x < h.cells.length) :
    ((detAdd h a b).2).length = a.length + b.length ∧
    ((detAdd h a b).2).drop a.length = b ∧
    detIAdd a b = a ++ b ∧
    (detIAdd a b).length = a.length + b.length ∧
    ∀ i, i < a.length →
      ((detAdd h a b).2).getD i 0 = h.cells.length + i ∧
      ((detAdd h a b).1).get (h.cells.length + i) = h.get (a.getD i 0) ∧
      ∀ x ∈ a, ∀ r : ObjRec,
        (((detAdd h a b).1).set x r).get (h.cells.length + i) =
          ((detAdd h a b).1).get (h.cells.length + i) := by
  have hcells : ((detAdd h a b).1).cells = h.cells ++ a.map h.get :=
    deepcopyGo_cells a h [] hv
  have haddrs : (detAdd h a b).2 =
      ((List.range a.length).map fun i => h.cells.length + i) ++ b := by
    show (deepcopyGo h a []).2 ++ b = _
    rw [deepcopyGo_addrs a h []]
    simp
  have hXlen : ((List.range a.length).map fun i => h.cells.length + i).length = a.length := by
    simp
  refine ⟨?_, ?_, rfl, by simp [detIAdd], ?_⟩
  · rw [haddrs]
    simp
  · rw [haddrs]
    have hdl := List.drop_left ((List.range a.length).map fun i => h.cells.length + i) b
    rwa [hXlen] at hdl
  · intro i hi
    refine ⟨?_, ?_, ?_⟩
    · rw [haddrs, List.getD_append _ _ _ _ (by omega)]
      rw [List.getD_eq_getElem _ _ (by omega)]
      rw [List.getElem_map]
      simp
    · show (((detAdd h a b).1).cells).getD (h.cells.length + i) default = _
      rw [hcells, List.getD_append_right _ _ _ _ (by omega)]
      have hsub : h.cells.length + i - h.cells.length = i := by omega
      rw [hsub]
      have hilt : i < (a.map h.get).length := by simpa using hi
      rw [List.getD_eq_getElem _ _ hilt, List.getElem_map, List.getD_eq_getElem _ _ hi]
    · intro x hx r
      have hxlt : x < h.cells.length := hv x hx
      exact Store.get_set_ne _ _ _ _ (by omega)

/-- Witness for `detAdd_spec`. -/
theorem detAdd_spec_witness :
    ((detAdd sampleStore [0] [0]).2).length = [0].length + [0].length ∧
    ((detAdd sampleStore [0] [0]).2).drop [0].length = [0] ∧
    detIAdd [0] [0] = [0] ++ [0] ∧
    (detIAdd [0] [0]).length = [0].length + [0].length ∧
    ∀ i, i < [0].length →
      ((detAdd sampleStore [0] [0]).2).getD i 0 = sampleStore.cells.length + i ∧
      ((detAdd sampleStore [0] [0]).1).get (sampleStore.cells.length + i) =
        sampleStore.get ([0].getD i 0) ∧
      ∀ x ∈ [0], ∀ r : ObjRec,
        (((detAdd sampleStore [0] [0]).1).set x r).get (sampleStore.cells.length + i) =
          ((detAdd sampleStore [0] [0]).1).get (sampleStore.cells.length + i) :=
  detAdd_spec sampleStore [0] [0] (by decide)

/-! ## Stacking agreement and similarity scoring -/

/-- C9: whenever the torch-form stacking succeeds, the numpy form succeeds
on the same collection/key/index with the exact same stacked values — the
numpy accessor is the torch result passed through `to_numpy`, which moves
only the container tag, never an element. -/
theorem stacked_numpy_torch_agree (h : Store) (l : List ℕ) (k : Key) (idx : Option ℕ)
    (kd : TKind) (x : ND)
    (hok : getStackedValuesTorch h l k idx = .ok (kd, x)) :
    kd = TKind.tensor ∧ getStackedValuesNumpy h l k idx = .ok (TKind.np, x) := by
  constructor
  · unfold getStackedValuesTorch at hok
    cases hsv : stackedVals h k idx l with
    | error e =>
      rw [hsv] at hok
      exact Except.noConfusion hok
    | ok xs =>
      rw [hsv] at hok
      simp only [Except.bind] at hok
      cases hst : stackND xs with
      | error e =>
        rw [hst] at hok
        exact Except.noConfusion hok
      | ok y =>
        rw [hst] at hok
        simp only [Except.map] at hok
        injection hok with h1
        exact (congrArg Prod.fst h1).symm
  · unfold getStackedValuesNumpy
    rw [hok]
    rfl

/-- Witness for `stacked_numpy_torch_agree` on a one-record collection. -/
theorem stacked_numpy_torch_agree_witness :
    TKind.tensor = TKind.tensor ∧
    getStackedValuesNumpy sampleStore [0] Key.descriptor none =
      .ok (TKind.np, ND.d2 [[1, 0]]) :=
  stacked_numpy_torch_agree sampleStore [0] Key.descriptor none TKind.tensor
    (ND.d2 [[1, 0]]) (by decide)

/-- C4 (counterexample): on the empty collection `compute_similarities`
raises instead of returning an empty result — `torch.stack` of the empty
list of stored descriptors is a RuntimeError. -/
theorem computeSimilarities_empty_errors :
    computeSimilarities ⟨[]⟩ [] (TKind.tensor, vecND [1, 0]) =
      .error Err.runtimeError := by decide

theorem stackedVals_descr (h : Store) (q : List ℚ) : ∀ (l : List ℕ),
    (∀ a ∈ l, ∃ kd v, (h.get a).descriptor = some (kd, vecND v) ∧ v.length = q.length) →
    ∃ vs : List (List ℚ), stackedVals h Key.descriptor none l = .ok (vs.map ND.d1) ∧
      vs.length = l.length ∧
      (∀ v ∈ vs, v.length = q.length) ∧
      ∀ i, i < l.length →
        ∃ kd, (h.get (l.getD i 0)).descriptor = some (kd, vecND (vs.getD i []))
  | [], _ => ⟨[], rfl, rfl, by simp, by intro i hi; simp at hi⟩
  | a :: rest, hd => by
    obtain ⟨kd, v, hdesc, hlen⟩ := hd a (by simp)
    obtain ⟨vs, hvs, hvslen, hvsq, hvsat⟩ :=
      stackedVals_descr h q rest (fun b hb => hd b (by simp [hb]))
    refine ⟨v :: vs, ?_, by simpa using hvslen, ?_, ?_⟩
    · have hone : stackedOne (h.get a) Key.descriptor none = .ok (ND.d1 v) := by
        unfold stackedOne
        simp [ObjRec.lookup, hdesc, vecND]
      have hstep : stackedVals h Key.descriptor none (a :: rest) =
          match stackedOne (h.get a) Key.descriptor none with
          | .error e => .error e
          | .ok x =>
            match stackedVals h Key.descriptor none rest with
            | .error e => .error e
            | .ok xs => .ok (x :: xs) := rfl
      rw [hstep]
      simp only [hone, hvs, List.map_cons]
    · intro w hw
      rcases List.mem_cons.mp hw with rfl | hmem
      · exact hlen
      · exact hvsq w hmem
    · intro i hi
      cases i with
      | zero => exact ⟨kd, hdesc⟩
      | succ j =>
        have hj : j < rest.length := by simpa using hi
        have hg1 : (a :: rest).getD (j + 1) 0 = rest.getD j 0 := rfl
        have hg2 : (v :: vs).getD (j + 1) [] = vs.getD j [] := rfl
        rw [hg1, hg2]
        exact hvsat j hj

theorem mapM_asD1_map_d1 : ∀ (ws : List (List ℚ)), (ws.map ND.d1).mapM asD1 = .ok ws
  | [] => rfl
  | w :: ws => by
    simp only [List.map_cons, List.mapM_cons, mapM_asD1_map_d1 ws]
    rfl

theorem stackND_d1 (vs : List (List ℚ)) (n : ℕ) (hne : vs ≠ [])
    (hlen : ∀ v ∈ vs, v.length = n) :
    stackND (vs.map ND.d1) = .ok (ND.d2 vs) := by
  obtain ⟨v0, rest, rfl⟩ : ∃ v0 rest, vs = v0 :: rest := by
    cases vs with
    | nil => exact absurd rfl hne
    | cons v0 rest => exact ⟨v0, rest, rfl⟩
  have hshape : (rest.map ND.d1).all (fun y => sameShape (ND.d1 v0) y) = true := by
    rw [List.all_eq_true]
    intro y hy
    obtain ⟨w, hw, rfl⟩ := List.mem_map.mp hy
    have h1 := hlen v0 (by simp)
    have h2 := hlen w (by simp [hw])
    simp [sameShape, h1, h2]
  have hstep : stackND (ND.d1 v0 :: rest.map ND.d1) =
      if (rest.map ND.d1).all (fun y => sameShape (ND.d1 v0) y) then
        ((ND.d1 v0 :: rest.map ND.d1).mapM asD1).map ND.d2
      else .error .runtimeError := rfl
  rw [List.map_cons, hstep, if_pos hshape,
    show ND.d1 v0 :: rest.map ND.d1 = (v0 :: rest).map ND.d1 from rfl,
    mapM_asD1_map_d1]
  rfl

/-- C4 (amended): on a NON-empty collection whose records carry
descriptors of the query's length, `compute_similarities` returns one
cosine-similarity score per record, in collection order, no record
excluded; the empty collection instead raises (see the counterexample). -/
theorem computeSimilarities_nonempty_spec (h : Store) (l : List ℕ) (kq : TKind)
    (q : List ℚ) (hne : l ≠ [])
    (hd : ∀ a ∈ l, ∃ kd v, (h.get a).descriptor = some (kd, vecND v) ∧
      v.length = q.length) :
    ∃ scores : List ℚ,
      computeSimilarities h l (kq, vecND q) = .ok (TKind.tensor, ND.d1 scores) ∧
      scores.length = l.length ∧
      ∀ i, i < l.length → ∃ kd v, (h.get (l.getD i 0)).descriptor = some (kd, vecND v) ∧
        scores.getD i 0 = simScore q v := by
  obtain ⟨vs, hvs, hvslen, hvsq, hvsat⟩ := stackedVals_descr h q l hd
  have hvsne : vs ≠ [] := by
    intro h0
    subst h0
    exact hne (List.length_eq_zero.mp hvslen.symm)
  have hstack : stackND (vs.map ND.d1) = .ok (ND.d2 vs) :=
    stackND_d1 vs q.length hvsne hvsq
  have htorch : getStackedValuesTorch h l Key.descriptor none =
      .ok (TKind.tensor, ND.d2 vs) := by
    unfold getStackedValuesTorch
    rw [hvs]
    simp only [Except.bind]
    rw [hstack]
    rfl
  have hall : (vs.all fun r => r.length = q.length) = true := by
    rw [List.all_eq_true]
    intro r hr
    exact decide_eq_true (hvsq r hr)
  refine ⟨vs.map fun r => simScore q r, ?_, by simpa using hvslen, ?_⟩
  · unfold computeSimilarities
    simp only [htorch]
    have hq : ndRow (toTensor (kq, vecND q)).2 = .ok q := rfl
    simp only [hq]
    have hrows : ndRows (ND.d2 vs) = .ok vs := rfl
    simp only [hrows]
    rw [if_pos hall]
  · intro i hi
    obtain ⟨kd, hdesc⟩ := hvsat i hi
    have hilt : i < vs.length := by omega
    refine ⟨kd, vs.getD i [], hdesc, ?_⟩
    rw [List.getD_eq_getElem _ _
      (show i < (vs.map fun r => simScore q r).length by simpa using hilt),
      List.getElem_map, List.getD_eq_getElem _ _ hilt]

/-- Witness for `computeSimilarities_nonempty_spec`. -/
theorem computeSimilarities_nonempty_spec_witness :
    ∃ scores : List ℚ,
      computeSimilarities sampleStore [0] (TKind.np, vecND [1, 0]) =
        .ok (TKind.tensor, ND.d1 scores) ∧
      scores.length = [0].length ∧
      ∀ i, i < [0].length →
        ∃ kd v, (sampleStore.get ([0].getD i 0)).descriptor = some (kd, vecND v) ∧
          scores.getD i 0 = simScore [1, 0] v :=
  computeSimilarities_nonempty_spec sampleStore [0] TKind.np [1, 0] (by decide) (by
    intro a ha
    have : a = 0 := by simpa using ha
    subst this
    exact ⟨TKind.tensor, [1, 0], rfl, rfl⟩)

/-! ## Instance coloring -/

theorem paintedWith_inst (r : ObjRec) (c : List ℚ) :
    (paintedWith r c).inst_color = r.inst_color := rfl

theorem linspace01_length (n : ℕ) : (linspace01 n).length = n := by
  unfold linspace01
  split <;> rw [List.length_map, List.length_range]

theorem paintByInstGo_frame : ∀ (l : List ℕ) (h : Store) (b : ℕ), b ∉ l →
    ((paintByInstGo h l).1).get b = h.get b
  | [], _, _, _ => rfl
  | a :: rest, h, b, hb => by
    have hstep : paintByInstGo h (a :: rest) =
        match paintInstRec (h.get a) with
        | .error e => (h, some e)
        | .ok r => paintByInstGo (h.set a r) rest := rfl
    rw [hstep]
    cases hp : paintInstRec (h.get a) with
    | error e => rfl
    | ok r =>
      simp only
      have hne : a ≠ b := by
        intro he
        subst he
        exact hb (by simp)
      rw [paintByInstGo_frame rest (h.set a r) b (fun hm => hb (by simp [hm]))]
      exact Store.get_set_ne h a b r hne

theorem paintByInstGo_spec : ∀ (l : List ℕ) (h : Store), l.Nodup →
    (∀ a ∈ l, a < h.cells.length ∧ (h.get a).pcd.isSome ∧
      (h.get a).inst_color.isSome ∧ (h.get a).bbox.isSome) →
    (paintByInstGo h l).2 = none ∧
    ∀ a ∈ l, ((paintByInstGo h l).1).get a =
      paintedWith (h.get a) ((h.get a).inst_color.getD [])
  | [], h, _, _ => ⟨rfl, by intro a ha; simp at ha⟩
  | a0 :: rest, h, hnd, hcond => by
    obtain ⟨hlt, hpcd, hic, hbbox⟩ := hcond a0 (by simp)
    obtain ⟨p, hp⟩ := Option.isSome_iff_exists.mp hpcd
    obtain ⟨c, hc⟩ := Option.isSome_iff_exists.mp hic
    obtain ⟨bb, hbb⟩ := Option.isSome_iff_exists.mp hbbox
    have hpaint : paintInstRec (h.get a0) = .ok (paintedWith (h.get a0) c) := by
      unfold paintInstRec
      simp only [hp, hc, hbb]
    have hstep : paintByInstGo h (a0 :: rest) =
        match paintInstRec (h.get a0) with
        | .error e => (h, some e)
        | .ok r => paintByInstGo (h.set a0 r) rest := rfl
    rw [hstep]
    simp only [hpaint]
    have ha0nin : a0 ∉ rest := (List.nodup_cons.mp hnd).1
    have hndr : rest.Nodup := (List.nodup_cons.mp hnd).2
    have hgets : ∀ b ∈ rest,
        (h.set a0 (paintedWith (h.get a0) c)).get b = h.get b := by
      intro b hbm
      exact Store.get_set_ne h a0 b _ (fun he => ha0nin (he ▸ hbm))
    have hcond2 : ∀ b ∈ rest,
        b < (h.set a0 (paintedWith (h.get a0) c)).cells.length ∧
        ((h.set a0 (paintedWith (h.get a0) c)).get b).pcd.isSome ∧
        ((h.set a0 (paintedWith (h.get a0) c)).get b).inst_color.isSome ∧
        ((h.set a0 (paintedWith (h.get a0) c)).get b).bbox.isSome := by
      intro b hbm
      obtain ⟨hb1, hb2, hb3, hb4⟩ := hcond b (by simp [hbm])
      rw [hgets b hbm]
      refine ⟨?_, hb2, hb3, hb4⟩
      rw [Store.length_set]
      exact hb1
    obtain ⟨herr, hgot⟩ :=
      paintByInstGo_spec rest (h.set a0 (paintedWith (h.get a0) c)) hndr hcond2
    refine ⟨herr, ?_⟩
    intro b hbm
    rcases List.mem_cons.mp hbm with rfl | hbm2
    · rw [paintByInstGo_frame rest _ b ha0nin, Store.get_set_self h b _ hlt, hc]
      rfl
    · rw [hgot b hbm2, hgets b hbm2]

theorem paintCmapGo_frame : ∀ (ps : List (ℕ × List ℚ)) (h : Store) (b : ℕ),
    (∀ p ∈ ps, p.1 ≠ b) → ((paintCmapGo h ps).1).get b = h.get b
  | [], _, _, _ => rfl
  | (a, c) :: rest, h, b, hb => by
    have hstep : paintCmapGo h ((a, c) :: rest) =
        match paintCmapRec (h.get a) c with
        | .error e => (h, some e)
        | .ok r => paintCmapGo (h.set a r) rest := rfl
    rw [hstep]
    cases hp : paintCmapRec (h.get a) c with
    | error e => rfl
    | ok r =>
      simp only
      have hne : a ≠ b := hb (a, c) (by simp)
      rw [paintCmapGo_frame rest (h.set a r) b (fun p hm => hb p (by simp [hm]))]
      exact Store.get_set_ne h a b r hne

theorem paintCmapGo_spec : ∀ (ps : List (ℕ × List ℚ)) (h : Store),
    (ps.map Prod.fst).Nodup →
    (∀ p ∈ ps, p.1 < h.cells.length ∧ (h.get p.1).pcd.isSome ∧
      (h.get p.1).bbox.isSome) →
    (paintCmapGo h ps).2 = none ∧
    ∀ p ∈ ps, ((paintCmapGo h ps).1).get p.1 = paintedWith (h.get p.1) p.2
  | [], h, _, _ => ⟨rfl, by intro p hp; simp at hp⟩
  | (a0, c0) :: rest, h, hnd, hcond => by
    obtain ⟨hlt, hpcd, hbbox⟩ := hcond (a0, c0) (by simp)
    obtain ⟨p, hp⟩ := Option.isSome_iff_exists.mp hpcd
    obtain ⟨bb, hbb⟩ := Option.isSome_iff_exists.mp hbbox
    have hpaint : paintCmapRec (h.get a0) c0 = .ok (paintedWith (h.get a0) c0) := by
      unfold paintCmapRec
      simp only [hp, hbb]
    have hstep : paintCmapGo h ((a0, c0) :: rest) =
        match paintCmapRec (h.get a0) c0 with
        | .error e => (h, some e)
        | .ok r => paintCmapGo (h.set a0 r) rest := rfl
    rw [hstep]
    simp only [hpaint]
    have hnd2 : (a0 :: rest.map Prod.fst).Nodup := hnd
    have hndm := List.nodup_cons.mp hnd2
    have ha0nin : ∀ p ∈ rest, p.1 ≠ a0 := by
      intro p hm he
      exact hndm.1 (he ▸ List.mem_map_of_mem Prod.fst hm)
    have hndr : (rest.map Prod.fst).Nodup := hndm.2
    have hgets : ∀ p ∈ rest,
        (h.set a0 (paintedWith (h.get a0) c0)).get p.1 = h.get p.1 := by
      intro p hm
      exact Store.get_set_ne h a0 p.1 _ (fun he => (ha0nin p hm) he.symm)
    have hcond2 : ∀ p ∈ rest,
        p.1 < (h.set a0 (paintedWith (h.get a0) c0)).cells.length ∧
        ((h.set a0 (paintedWith (h.get a0) c0)).get p.1).pcd.isSome ∧
        ((h.set a0 (paintedWith (h.get a0) c0)).get p.1).bbox.isSome := by
      intro pr hm
      obtain ⟨hb1, hb2, hb3⟩ := hcond pr (by simp [hm])
      rw [hgets pr hm]
      refine ⟨?_, hb2, hb3⟩
      rw [Store.length_set]
      exact hb1
    obtain ⟨herr, hgot⟩ :=
      paintCmapGo_spec rest (h.set a0 (paintedWith (h.get a0) c0)) hndr hcond2
    refine ⟨herr, ?_⟩
    intro pr hm
    rcases List.mem_cons.mp hm with rfl | hm2
    · show ((paintCmapGo (h.set a0 (paintedWith (h.get a0) c0)) rest).1).get a0 =
        paintedWith (h.get a0) c0
      rw [paintCmapGo_frame rest _ a0 ha0nin, Store.get_set_self h a0 _ hlt]
    · rw [hgot pr hm2, hgets pr hm2]

/-- C8 (counterexample): with the first record carrying `inst_color` and
the second lacking it — so NOT every record carries `inst_color` — the
code does not take the colormap path: the branch is decided by the first
record alone, so it paints the first record with its own `inst_color` and
then raises `KeyError 'inst_color'` on the second, the first paint
persisting. -/
theorem colorByInstance_mixed_first_cex :
    (colorByInstance cmap0 mixedStore [0, 1]).2 = some (Err.keyError "inst_color") ∧
    ((colorByInstance cmap0 mixedStore [0, 1]).1).get 0 =
      paintedWith mixedRec0 [1, 0, 0] := by decide

/-- C8 (amended): `color_by_instance` is a no-op on the empty collection.
The branch is decided by whether the FIRST record carries `inst_color`
(not all records): if the first does, every record is painted with its own
`inst_color` (raising KeyError if a later record lacks one); if the first
does not, N evenly spaced colormap colors (first three components) are
assigned one per record by position, and the generated colors are not
written back into `inst_color`. -/
theorem colorByInstance_spec (cmap : ℚ → List ℚ) (h : Store) (self : List ℕ) :
    (colorByInstance cmap h [] = (h, none)) ∧
    (∀ a0 rest, self = a0 :: rest → (h.get a0).inst_color.isSome → self.Nodup →
      (∀ a ∈ self, a < h.cells.length ∧ (h.get a).pcd.isSome ∧
        (h.get a).inst_color.isSome ∧ (h.get a).bbox.isSome) →
      (colorByInstance cmap h self).2 = none ∧
      ∀ a ∈ self, ((colorByInstance cmap h self).1).get a =
        paintedWith (h.get a) ((h.get a).inst_color.getD [])) ∧
    (∀ a0 rest, self = a0 :: rest → (h.get a0).inst_color = none → self.Nodup →
      (∀ a ∈ self, a < h.cells.length ∧ (h.get a).pcd.isSome ∧
        (h.get a).bbox.isSome) →
      (colorByInstance cmap h self).2 = none ∧
      ∀ i, i < self.length →
        ((colorByInstance cmap h self).1).get (self.getD i 0) =
          paintedWith (h.get (self.getD i 0))
            ((cmap ((linspace01 self.length).getD i 0)).take 3) ∧
        (((colorByInstance cmap h self).1).get (self.getD i 0)).inst_color =
          (h.get (self.getD i 0)).inst_color) := by
  refine ⟨rfl, ?_, ?_⟩
  · intro a0 rest hself hsome hnd hconds
    subst hself
    have hbr0 : colorByInstance cmap h (a0 :: rest) =
        if (h.get a0).inst_color.isSome then paintByInstGo h (a0 :: rest)
        else paintCmapGo h ((a0 :: rest).zip
          ((linspace01 (a0 :: rest).length).map fun t => (cmap t).take 3)) := rfl
    have hbr : colorByInstance cmap h (a0 :: rest) = paintByInstGo h (a0 :: rest) := by
      rw [hbr0, if_pos hsome]
    rw [hbr]
    exact paintByInstGo_spec (a0 :: rest) h hnd hconds
  · intro a0 rest hself hnone hnd hconds
    subst hself
    have hbr0 : colorByInstance cmap h (a0 :: rest) =
        if (h.get a0).inst_color.isSome then paintByInstGo h (a0 :: rest)
        else paintCmapGo h ((a0 :: rest).zip
          ((linspace01 (a0 :: rest).length).map fun t => (cmap t).take 3)) := rfl
    have hbr : colorByInstance cmap h (a0 :: rest) =
        paintCmapGo h ((a0 :: rest).zip
          ((linspace01 (a0 :: rest).length).map fun t => (cmap t).take 3)) := by
      rw [hbr0, if_neg (by simp [hnone])]
    have hcolslen :
        ((linspace01 (a0 :: rest).length).map fun t => (cmap t).take 3).length =
          (a0 :: rest).length := by
      rw [List.length_map, linspace01_length]
    have hfst : (((a0 :: rest).zip
        ((linspace01 (a0 :: rest).length).map fun t => (cmap t).take 3)).map
          Prod.fst) = a0 :: rest :=
      List.map_fst_zip _ _ (le_of_eq hcolslen.symm)
    have hndfst : (((a0 :: rest).zip
        ((linspace01 (a0 :: rest).length).map fun t => (cmap t).take 3)).map
          Prod.fst).Nodup := by
      rw [hfst]
      exact hnd
    have hpconds : ∀ p ∈ ((a0 :: rest).zip
        ((linspace01 (a0 :: rest).length).map fun t => (cmap t).take 3)),
        p.1 < h.cells.length ∧ (h.get p.1).pcd.isSome ∧ (h.get p.1).bbox.isSome := by
      intro p hp
      exact hconds p.1 (List.of_mem_zip hp).1
    obtain ⟨herr, hgot⟩ := paintCmapGo_spec ((a0 :: rest).zip
      ((linspace01 (a0 :: rest).length).map fun t => (cmap t).take 3)) h hndfst hpconds
    refine ⟨by rw [hbr]; exact herr, ?_⟩
    intro i hi
    have hilin : i < (linspace01 (a0 :: rest).length).length := by
      rw [linspace01_length]
      exact hi
    have hicols : i < ((linspace01 (a0 :: rest).length).map
        fun t => (cmap t).take 3).length := by
      rw [hcolslen]
      exact hi
    have hizip : i < ((a0 :: rest).zip
        ((linspace01 (a0 :: rest).length).map fun t => (cmap t).take 3)).length := by
      rw [List.length_zip, hcolslen, Nat.min_self]
      exact hi
    have hzipgd : ((a0 :: rest).zip
        ((linspace01 (a0 :: rest).length).map fun t => (cmap t).take 3)).getD i (0, []) =
        ((a0 :: rest).getD i 0,
         ((linspace01 (a0 :: rest).length).map fun t => (cmap t).take 3).getD i []) := by
      rw [List.getD_eq_getElem _ _ hizip, List.getD_eq_getElem _ _ hi,
        List.getD_eq_getElem _ _ hicols]
      exact List.getElem_zip
    have hp_mem : ((a0 :: rest).zip
        ((linspace01 (a0 :: rest).length).map fun t => (cmap t).take 3)).getD i (0, []) ∈
        (a0 :: rest).zip
          ((linspace01 (a0 :: rest).length).map fun t => (cmap t).take 3) := by
      rw [List.getD_eq_getElem _ _ hizip]
      exact List.getElem_mem hizip
    have hres := hgot _ hp_mem
    rw [hzipgd] at hres
    dsimp only at hres
    have hcolgd : ((linspace01 (a0 :: rest).length).map
        fun t => (cmap t).take 3).getD i [] =
        (cmap ((linspace01 (a0 :: rest).length).getD i 0)).take 3 := by
      rw [List.getD_eq_getElem _ _ hicols, List.getD_eq_getElem _ _ hilin]
      exact List.getElem_map _
    constructor
    · rw [hbr]
      rw [hcolgd] at hres
      exact hres
    · rw [hbr, hres, paintedWith_inst]

/-- Witness for `colorByInstance_spec` (inst-color branch, one record). -/
theorem colorByInstance_spec_witness :
    (colorByInstance cmap0 ⟨[mixedRec0]⟩ [0]).2 = none ∧
    ∀ a ∈ [0], ((colorByInstance cmap0 ⟨[mixedRec0]⟩ [0]).1).get a =
      paintedWith ((⟨[mixedRec0]⟩ : Store).get a)
        (((⟨[mixedRec0]⟩ : Store).get a).inst_color.getD []) :=
  (colorByInstance_spec cmap0 ⟨[mixedRec0]⟩ [0]).2.1 0 [] rfl (by decide)
    (by decide) (by decide)

end BBQ
